import Mathlib

/-!
Verification development for the go-fe-demo repository: a CLI demo around a
DDH-based inner-product functional-encryption scheme.  The repository code
under src/ contributes the CLI glue (vector parsing, int conversion, a
wrapper holding one master key pair); the scheme operations themselves live
in a third-party library and are modelled here from the specification.
All machine integers of the Go code are arbitrary-precision (big.Int), so
they embed as Nat / Int directly.
-/

deriving instance DecidableEq for Except

namespace DDHFE

/-- Modelled from the spec: the error taxonomy of section 7 plus the
NotFound failure of the bounded discrete-log subroutine (section 4.4). -/
inductive FeError where
  | ParameterError
  | DimensionMismatch
  | OutOfBound
  | IncompleteInput
  | DecryptionFailed
  | EntropyFailure
  | NotFound
deriving Repr, DecidableEq

/-- Modelled from the spec: GroupParams with prime modulus P, subgroup order
Q, generator G, vector length L and coordinate bound. -/
structure GroupParams where
  L : Nat
  G : Nat
  P : Nat
  Q : Nat
  bound : Nat
deriving Repr, DecidableEq

/-- Inner product of two coordinate lists, truncating at the shorter one. -/
def innerProd (x y : List Nat) : Nat :=
  (List.zipWith (fun a b => a * b) x y).sum

/-- Modelled from the spec: GenerateMasterKeys draws L secret exponents
(the randomness is threaded in explicitly as the list of secrets) and
publishes the exponentials G ^ s mod P. -/
def GenerateMasterKeys (par : GroupParams) (secrets : List Nat) :
    List Nat × List Nat :=
  (secrets, secrets.map fun s => par.G ^ s % par.P)

/-- Modelled from the spec: a single-input ciphertext, one blinding element
c0 = G ^ r and one blinded element per coordinate. -/
structure Ciphertext where
  c0 : Nat
  cs : List Nat
deriving Repr, DecidableEq

/-- Modelled from the spec: single-input Encrypt.  Rejects a vector of the
wrong length with DimensionMismatch and a coordinate at or above the bound
with OutOfBound; otherwise returns c0 = G ^ r and ci = G ^ xi * mpk_i ^ r
mod P, with the ephemeral exponent r threaded in explicitly. -/
def Encrypt (par : GroupParams) (mpk : List Nat) (r : Nat) (x : List Nat) :
    Except FeError Ciphertext :=
  if x.length ≠ par.L then .error .DimensionMismatch
  else if x.any (fun xi => decide (par.bound ≤ xi)) then .error .OutOfBound
  else .ok ⟨par.G ^ r % par.P,
    List.zipWith (fun xi hi => par.G ^ xi * hi ^ r % par.P) x mpk⟩

/-- Modelled from the spec: DeriveKey computes the inner product of the
master secret key with the weight vector, reduced modulo Q, after checking
the weight vector has length L. -/
def DeriveKey (par : GroupParams) (msk y : List Nat) : Except FeError Nat :=
  if y.length ≠ par.L then .error .DimensionMismatch
  else .ok (innerProd msk y % par.Q)

/-- Linear scan for the least exponent v with g ^ v mod p = target, starting
at start with the given fuel.  This realises the bounded discrete-log search
of the spec (section 4.4): the baby-step giant-step table returns the first
matching exponent, which over a range below the generator order is the least
one, and the search never leaves the caller-declared window. -/
def dlogSearch (g p target : Nat) : Nat → Nat → Option Nat
  | 0, _ => none
  | fuel + 1, v =>
    if g ^ v % p = target then some v
    else dlogSearch g p target fuel (v + 1)

/-- Modelled from the spec: Bounded Discrete-Log Recovery over the range
from 0 (inclusive) to r (exclusive); fails with NotFound when no exponent in
that window maps to the target. -/
def dlogRecover (g p target r : Nat) : Except FeError Nat :=
  match dlogSearch g p target r 0 with
  | some v => .ok v
  | none => .error .NotFound

/-- Modular inverse by Fermat exponentiation, the group-division primitive
used by decryption (P is prime in every generated parameter set). -/
def invMod (a p : Nat) : Nat := a ^ (p - 2) % p

/-- Modelled from the spec: single-input Decrypt.  Checks dimensions, forms
num as the product of the blinded elements raised to the weights, divides by
c0 ^ fk, and recovers the exponent of the quotient over the range from 0 to
L times bound squared; a failed search surfaces as DecryptionFailed. -/
def Decrypt (par : GroupParams) (c : Ciphertext) (fk : Nat) (y : List Nat) :
    Except FeError Nat :=
  if y.length ≠ par.L then .error .DimensionMismatch
  else if c.cs.length ≠ par.L then .error .DimensionMismatch
  else
    match dlogRecover par.G par.P
        ((List.zipWith (fun ci yi => ci ^ yi) c.cs y).prod % par.P *
          invMod (c.c0 ^ fk % par.P) par.P % par.P)
        (par.L * par.bound ^ 2) with
    | .ok v => .ok v
    | .error _ => .error .DecryptionFailed

/-- Modelled from the spec: parameters of the multi-input scheme, the
number N of encryptors on top of the shared group parameters. -/
structure MultiParams where
  numClients : Nat
  params : GroupParams
deriving Repr, DecidableEq

/-- Modelled from the spec: MultiMasterSecretKey, N single-input-style
secret key vectors plus N one-time-pad key vectors. -/
structure MultiSecKey where
  msks : List (List Nat)
  otps : List (List Nat)
deriving Repr, DecidableEq

/-- Modelled from the spec: per-client multi-input encryption, the
single-input Encrypt with the one-time-pad key folded into each blinded
coordinate as a further factor G ^ otp_j.  The spec leaves the exact
blinding algebra flagged as an open question; this follows its section 4.3
wording literally. -/
def EncryptMulti (par : GroupParams) (mpk otp : List Nat) (r : Nat)
    (x : List Nat) : Except FeError Ciphertext :=
  match Encrypt par mpk r x with
  | .error e => .error e
  | .ok c => .ok ⟨c.c0,
      List.zipWith (fun cj uj => cj * par.G ^ uj % par.P) c.cs otp⟩

/-- Modelled from the spec: multi-input DeriveKey.  Requires Y to have
exactly N rows of length L; per encryptor takes the inner product of that
encryptor secret key with its row, subtracts the one-time-pad contribution,
and sums across rows into one scalar modulo Q.  The happy-path algebra
follows the section 4.3 wording, which the spec itself flags as requiring
independent re-derivation. -/
def DeriveKeyMulti (mp : MultiParams) (sk : MultiSecKey)
    (Y : List (List Nat)) : Except FeError Int :=
  if Y.length ≠ mp.numClients then .error .DimensionMismatch
  else if Y.any (fun row => decide (row.length ≠ mp.params.L)) then
    .error .DimensionMismatch
  else
    .ok (((List.zipWith (fun si yi => (innerProd si yi : Int)) sk.msks Y).sum
        - (List.zipWith (fun ui yi => (innerProd ui yi : Int)) sk.otps Y).sum)
      % (mp.params.Q : Int))

/-- Modelled from the spec: multi-input Decrypt.  Checks the matrix shape
against (N, L), then that all N ciphertexts are present (IncompleteInput),
aggregates the ciphertexts weighted by their rows, divides out the function
key blinding and searches the range from 0 to N times L times bound squared.
The happy-path algebra follows the section 4.3 wording, which the spec
itself flags as requiring independent re-derivation. -/
def DecryptMulti (mp : MultiParams) (ciphers : List Ciphertext) (fk : Int)
    (Y : List (List Nat)) : Except FeError Nat :=
  if Y.length ≠ mp.numClients then .error .DimensionMismatch
  else if Y.any (fun row => decide (row.length ≠ mp.params.L)) then
    .error .DimensionMismatch
  else if ciphers.length < mp.numClients then .error .IncompleteInput
  else
    let par := mp.params
    let num := (List.zipWith
        (fun (c : Ciphertext) yi =>
          (List.zipWith (fun cij yij => cij ^ yij) c.cs yi).prod)
        ciphers Y).prod % par.P
    let c0s := (ciphers.map (fun c => c.c0)).prod % par.P
    let fkN := (fk % (par.Q : Int)).toNat
    let target := num * invMod (c0s ^ fkN % par.P) par.P % par.P
    match dlogRecover par.G par.P target
        (mp.numClients * par.L * par.bound ^ 2) with
    | .ok v => .ok v
    | .error _ => .error .DecryptionFailed

/-- Trial-division primality test used by the parameter generator model. -/
def isPrime (n : Nat) : Bool :=
  decide (2 ≤ n) && (List.range (n - 2)).all fun d => decide (n % (d + 2) ≠ 0)

/-- A candidate prime pair with generator, as produced by one
probabilistic-generation trial. -/
structure GroupCandidate where
  p : Nat
  q : Nat
  g : Nat
deriving Repr, DecidableEq

/-- Modelled from the spec: the acceptance test of the group parameter
generator, section 4.1: P and Q prime, Q dividing P - 1, G a nontrivial
element with G ^ Q = 1 mod P (hence of exact order Q as Q is prime), the
maximal inner product L times bound squared strictly below Q, and P fitting
the requested modulus length. -/
def suitable (l modLen bnd : Nat) (c : GroupCandidate) : Bool :=
  isPrime c.p && isPrime c.q && decide ((c.p - 1) % c.q = 0) &&
    decide (c.g % c.p ≠ 1) && decide (c.g ^ c.q % c.p = 1) &&
    decide (l * bnd ^ 2 < c.q) && decide (c.p < 2 ^ modLen)

/-- Modelled from the spec: the group parameter generator.  The bounded
sequence of probabilistic trials is threaded in as the candidate list; the
generator returns the first suitable candidate as GroupParams and fails with
ParameterError when no candidate passes, which also covers a bound and
length combination that cannot fit the requested modulus length. -/
def NewDDHParams (l modLen bnd : Nat) (cands : List GroupCandidate) :
    Except FeError GroupParams :=
  match cands.find? (suitable l modLen bnd) with
  | some c => .ok ⟨l, c.g, c.p, c.q, bnd⟩
  | none => .error .ParameterError

/-- One character of a base-10 numeral. -/
def charDigit (c : Char) : Bool := decide ('0' ≤ c) && decide (c ≤ '9')

/-- Value of a base-10 numeral, most significant digit first. -/
def digitsToNat (s : List Char) : Nat :=
  s.foldl (fun acc c => acc * 10 + (c.toNat - 48)) 0

/-- Embedding of strconv.ParseUint with base 10 and bit size 64: fails on
the empty token, on any non-digit character, and on values at or above
2 ^ 64; otherwise returns the numeral value. -/
def parseUint64 (s : List Char) : Option Nat :=
  if s.isEmpty then none
  else if s.all charDigit then
    if digitsToNat s < 2 ^ 64 then some (digitsToNat s) else none
  else none

/-- Embedding of strings.Split with separator comma: the list of tokens
between commas, empty tokens preserved, one empty token for the empty
string. -/
def splitComma : List Char → List (List Char)
  | [] => [[]]
  | c :: rest =>
    if c = ',' then [] :: splitComma rest
    else
      match splitComma rest with
      | [] => [[c]]
      | t :: ts => (c :: t) :: ts

/-- The token loop of VecFromStr: parse every token in order as an unsigned
64-bit integer and fail on the first bad token, as the Go loop returns on
the first strconv error. -/
def parseTokens : List (List Char) → Option (List Nat)
  | [] => some []
  | t :: ts =>
    match parseUint64 t, parseTokens ts with
    | some v, some vs => some (v :: vs)
    | _, _ => none

/-- Embedding of VecFromStr from src/main.go: split the input on commas and
parse every token as an unsigned 64-bit integer, failing on the first bad
token. -/
def VecFromStr (s : List Char) : Option (List Nat) :=
  parseTokens (splitComma s)

/-- Embedding of IntsToVec from src/main.go: each int is converted through
int64 to a big.Int, which preserves the value exactly; on values this is the
identity map, with no sign or bound check. -/
def IntsToVec (x : List Int) : List Int := x.map fun xi => xi

/-- Embedding of the DDHWrapper struct from the wrapper source file: the
scheme parameters together with the master key pair stored at
construction. -/
structure DDHWrapper where
  params : GroupParams
  msk : List Nat
  mpk : List Nat
deriving Repr, DecidableEq

/-- Embedding of NewDDH from the wrapper source file: builds the scheme,
generates the master key pair once and stores it in the wrapper (group
parameters and key randomness are threaded in explicitly). -/
def NewDDH (par : GroupParams) (secrets : List Nat) : DDHWrapper :=
  ⟨par, (GenerateMasterKeys par secrets).1, (GenerateMasterKeys par secrets).2⟩

/-- Embedding of the wrapper Encrypt method: delegates to the scheme
Encrypt with the stored public key. -/
def DDHWrapper.Encrypt (w : DDHWrapper) (r : Nat) (x : List Nat) :
    Except FeError Ciphertext :=
  DDHFE.Encrypt w.params w.mpk r x

/-- Embedding of the wrapper DeriveKey method: delegates to the scheme
DeriveKey with the stored secret key. -/
def DDHWrapper.DeriveKey (w : DDHWrapper) (y : List Nat) :
    Except FeError Nat :=
  DDHFE.DeriveKey w.params w.msk y

/-- A small concrete parameter set used to witness the theorems: G = 2 has
prime order Q = 11 in the group of units modulo the prime P = 23, and with
L = 2 and bound 2 the recovery window 8 sits strictly below Q. -/
def par23 : GroupParams := ⟨2, 2, 23, 11, 2⟩

/-- A small concrete multi-input parameter set over par23 with two
encryptors, used to witness the dimension checks. -/
def mp1 : MultiParams := ⟨2, par23⟩

/-! Helper lemmas on modular exponentiation. -/

theorem mod_pow_mod (u P k : Nat) : (u % P) ^ k % P = u ^ k % P :=
  (Nat.pow_mod u k P).symm

theorem mul_mod_both (u v P : Nat) : u % P * (v % P) % P = u * v % P :=
  (Nat.mul_mod u v P).symm

/-- With G of order dividing Q modulo P, exponents reduce modulo Q. -/
theorem pow_mod_reduce (G P Q : Nat) (hP : 1 < P) (hord : G ^ Q % P = 1)
    (a : Nat) : G ^ a % P = G ^ (a % Q) % P := by
  conv_lhs => rw [← Nat.div_add_mod a Q]
  rw [pow_add, pow_mul, Nat.mul_mod, Nat.pow_mod, hord, one_pow,
    Nat.one_mod_eq_one.mpr (by omega), one_mul, Nat.mod_mod_of_dvd _ dvd_rfl]

/-- Congruent exponents give the same power modulo P. -/
theorem pow_mod_congr (G P Q : Nat) (hP : 1 < P) (hord : G ^ Q % P = 1)
    {a b : Nat} (h : a % Q = b % Q) : G ^ a % P = G ^ b % P := by
  rw [pow_mod_reduce G P Q hP hord a, pow_mod_reduce G P Q hP hord b, h]

/-! Helper lemmas on the bounded discrete-log search. -/

theorem dlogSearch_sound (g p t : Nat) :
    ∀ (fuel start v : Nat), dlogSearch g p t fuel start = some v →
      g ^ v % p = t ∧ start ≤ v ∧ v < start + fuel := by
  intro fuel
  induction fuel with
  | zero => intro start v h; simp [dlogSearch] at h
  | succ n ih =>
    intro start v h
    simp only [dlogSearch] at h
    by_cases hm : g ^ start % p = t
    · rw [if_pos hm] at h
      cases h
      exact ⟨hm, Nat.le_refl _, by omega⟩
    · rw [if_neg hm] at h
      obtain ⟨h1, h2, h3⟩ := ih (start + 1) v h
      exact ⟨h1, by omega, by omega⟩

theorem dlogSearch_complete (g p t : Nat) :
    ∀ (fuel start v : Nat), start ≤ v → v < start + fuel → g ^ v % p = t →
      (∀ w, start ≤ w → w < v → g ^ w % p ≠ t) →
      dlogSearch g p t fuel start = some v := by
  intro fuel
  induction fuel with
  | zero => intro start v h1 h2 h3 h4; omega
  | succ n ih =>
    intro start v h1 h2 h3 h4
    simp only [dlogSearch]
    by_cases hm : g ^ start % p = t
    · have hv : v = start := by
        by_contra hne
        exact h4 start (Nat.le_refl _) (by omega) hm
      rw [if_pos hm, hv]
    · rw [if_neg hm]
      have hsv : start ≠ v := fun he => hm (he ▸ h3)
      exact ih (start + 1) v (by omega) (by omega) h3
        (fun w hw1 hw2 => h4 w (by omega) hw2)

theorem dlogSearch_none (g p t : Nat) :
    ∀ (fuel start : Nat),
      (∀ w, start ≤ w → w < start + fuel → g ^ w % p ≠ t) →
      dlogSearch g p t fuel start = none := by
  intro fuel
  induction fuel with
  | zero => intro start h; simp [dlogSearch]
  | succ n ih =>
    intro start h
    simp only [dlogSearch]
    rw [if_neg (h start (Nat.le_refl _) (by omega))]
    exact ih (start + 1) (fun w h1 h2 => h w (by omega) (by omega))

/-- Over a window not exceeding the order, recovery returns the exponent. -/
theorem dlogRecover_exact (G P Q : Nat)
    (hinj : ∀ a < Q, ∀ b < Q, G ^ a % P = G ^ b % P → a = b)
    (v R : Nat) (hvR : v < R) (hRQ : R ≤ Q) :
    dlogRecover G P (G ^ v % P) R = .ok v := by
  unfold dlogRecover
  rw [dlogSearch_complete G P (G ^ v % P) R 0 v (Nat.zero_le v) (by omega) rfl
    (fun w hw1 hw2 heq => absurd (hinj w (by omega) v (by omega) heq) (by omega))]

/-- Over a window not exceeding the order, an exponent at or beyond the
window but below the order is never found. -/
theorem dlogRecover_misses (G P Q : Nat)
    (hinj : ∀ a < Q, ∀ b < Q, G ^ a % P = G ^ b % P → a = b)
    (v R : Nat) (hRv : R ≤ v) (hvQ : v < Q) :
    dlogRecover G P (G ^ v % P) R = .error .NotFound := by
  unfold dlogRecover
  rw [dlogSearch_none G P (G ^ v % P) R 0
    (fun w hw1 hw2 heq => absurd (hinj w (by omega) v (by omega) heq) (by omega))]

/-! The ciphertext aggregation algebra. -/

/-- A blinded coordinate is a power of the generator modulo P. -/
theorem head_mod (G P a b r : Nat) :
    G ^ a * (G ^ b % P) ^ r % P = G ^ (a + b * r) % P := by
  rw [Nat.mul_mod, mod_pow_mod, ← pow_mul, ← Nat.mul_mod, ← pow_add]

/-- The weighted product of the blinded coordinates collapses to the
generator raised to the blinded inner product. -/
theorem cipher_prod_pow (G P r : Nat) :
    ∀ (x s y : List Nat), x.length = s.length →
      (List.zipWith (fun ci yi => ci ^ yi)
        (List.zipWith (fun xi hi => G ^ xi * hi ^ r % P) x
          (s.map fun si => G ^ si % P)) y).prod % P
      = G ^ (innerProd x y + r * innerProd s y) % P := by
  intro x
  induction x with
  | nil =>
    intro s y h
    obtain rfl : s = [] := by cases s with
      | nil => rfl
      | cons b s => simp at h
    simp [innerProd]
  | cons a x ih =>
    intro s y h
    cases s with
    | nil => simp at h
    | cons b s =>
      cases y with
      | nil => simp [innerProd]
      | cons c y =>
        simp only [List.map_cons, List.zipWith_cons_cons, List.prod_cons]
        rw [head_mod, Nat.mul_mod, mod_pow_mod, ← pow_mul,
          ih s y (by simpa using h), ← Nat.mul_mod, ← pow_add]
        have hexp : (a + b * r) * c +
            (innerProd x y + r * innerProd s y)
            = innerProd (a :: x) (c :: y) + r * innerProd (b :: s) (c :: y) := by
          simp only [innerProd, List.zipWith_cons_cons, List.sum_cons]
          ring
        rw [hexp]

/-! Bounds on the inner product. -/

theorem innerProd_le (B : Nat) :
    ∀ (x y : List Nat), (∀ a ∈ x, a < B) → (∀ b ∈ y, b < B) →
      innerProd x y ≤ x.length * B ^ 2 := by
  intro x
  induction x with
  | nil => intro y hx hy; simp [innerProd]
  | cons a x ih =>
    intro y hx hy
    cases y with
    | nil => simp [innerProd]
    | cons c y =>
      simp only [innerProd, List.zipWith_cons_cons, List.sum_cons,
        List.length_cons]
      have h1 : a * c ≤ B ^ 2 := by
        rw [pow_two]
        exact Nat.mul_le_mul (Nat.le_of_lt (hx a (by simp)))
          (Nat.le_of_lt (hy c (by simp)))
      have h2 : innerProd x y ≤ x.length * B ^ 2 :=
        ih y (fun u hu => hx u (by simp [hu])) (fun u hu => hy u (by simp [hu]))
      calc a * c + (List.zipWith (fun a b => a * b) x y).sum
          = a * c + innerProd x y := rfl
        _ ≤ B ^ 2 + x.length * B ^ 2 := Nat.add_le_add h1 h2
        _ = (x.length + 1) * B ^ 2 := by ring

theorem innerProd_lt (B : Nat) :
    ∀ (x y : List Nat), x ≠ [] → x.length = y.length →
      (∀ a ∈ x, a < B) → (∀ b ∈ y, b < B) →
      innerProd x y < x.length * B ^ 2 := by
  intro x
  cases x with
  | nil => intro y h; exact absurd rfl h
  | cons a x =>
    intro y hne hlen hx hy
    cases y with
    | nil => simp at hlen
    | cons c y =>
      simp only [innerProd, List.zipWith_cons_cons, List.sum_cons,
        List.length_cons]
      have h1 : a * c < B ^ 2 := by
        rw [pow_two]
        exact mul_lt_mul'' (hx a (by simp)) (hy c (by simp))
          (Nat.zero_le _) (Nat.zero_le _)
      have h2 : innerProd x y ≤ x.length * B ^ 2 :=
        innerProd_le B x y (fun u hu => hx u (by simp [hu]))
          (fun u hu => hy u (by simp [hu]))
      calc a * c + (List.zipWith (fun a b => a * b) x y).sum
          = a * c + innerProd x y := rfl
        _ < B ^ 2 + x.length * B ^ 2 := Nat.add_lt_add_of_lt_of_le h1 h2
        _ = (x.length + 1) * B ^ 2 := by ring

/-- The blinding contribution of the function key cancels modulo Q: the
exponent assembled by decryption is congruent to the plain inner product. -/
theorem exponent_reduce (Q P S r A : Nat) (hP : 1 < P) (hdvd : Q ∣ P - 1) :
    (A + r * S + r * (S % Q) * (P - 2)) % Q = A % Q := by
  have h1 : r * S ≡ r * (S % Q) [MOD Q] :=
    Nat.ModEq.mul_left r (Nat.mod_modEq S Q).symm
  have h2 : A + r * S + r * (S % Q) * (P - 2)
      ≡ A + r * (S % Q) + r * (S % Q) * (P - 2) [MOD Q] :=
    Nat.ModEq.add_right _ (Nat.ModEq.add_left A h1)
  have h3 : A + r * (S % Q) + r * (S % Q) * (P - 2)
      = A + r * (S % Q) * (P - 1) := by
    have hp1 : P - 1 = (P - 2) + 1 := by omega
    rw [hp1]; ring
  have h4 : r * (S % Q) * (P - 1) ≡ 0 [MOD Q] :=
    (Nat.modEq_zero_iff_dvd).mpr (hdvd.mul_left _)
  calc A + r * S + r * (S % Q) * (P - 2)
      ≡ A + r * (S % Q) * (P - 1) [MOD Q] := h3 ▸ h2
    _ ≡ A + 0 [MOD Q] := Nat.ModEq.add_left A h4
    _ = A := by omega

/-! Evaluation of the scheme operations on well-formed inputs. -/

theorem encrypt_ok (par : GroupParams) (mpk x : List Nat) (r : Nat)
    (hx : x.length = par.L) (hxb : ∀ a ∈ x, a < par.bound) :
    Encrypt par mpk r x = .ok ⟨par.G ^ r % par.P,
      List.zipWith (fun xi hi => par.G ^ xi * hi ^ r % par.P) x mpk⟩ := by
  have hany : ¬ (x.any (fun xi => decide (par.bound ≤ xi)) = true) := by
    simp only [List.any_eq_true, decide_eq_true_eq, not_exists]
    intro a
    simp only [not_and, Nat.not_le]
    exact hxb a
  unfold Encrypt
  rw [if_neg (fun hn => hn hx), if_neg hany]

theorem deriveKey_ok (par : GroupParams) (msk y : List Nat)
    (hy : y.length = par.L) :
    DeriveKey par msk y = .ok (innerProd msk y % par.Q) := by
  unfold DeriveKey
  rw [if_neg (fun hn => hn hy)]

/-- Decryption of an honestly produced ciphertext with the derived key
reduces to bounded discrete-log recovery of the true inner product: the
quotient assembled by Decrypt is exactly the generator raised to the inner
product of x and y, modulo P. -/
theorem decrypt_target (par : GroupParams) (msk x y : List Nat) (r : Nat)
    (hP : 1 < par.P)
    (hdvd : par.Q ∣ par.P - 1)
    (hord : par.G ^ par.Q % par.P = 1)
    (hm : msk.length = par.L) (hx : x.length = par.L) (hy : y.length = par.L) :
    Decrypt par
        ⟨par.G ^ r % par.P,
          List.zipWith (fun xi hi => par.G ^ xi * hi ^ r % par.P) x
            (msk.map fun s => par.G ^ s % par.P)⟩
        (innerProd msk y % par.Q) y
      = match dlogRecover par.G par.P (par.G ^ innerProd x y % par.P)
            (par.L * par.bound ^ 2) with
        | .ok v => .ok v
        | .error _ => .error .DecryptionFailed := by
  have hcs : (List.zipWith (fun xi hi => par.G ^ xi * hi ^ r % par.P) x
      (msk.map fun s => par.G ^ s % par.P)).length = par.L := by
    simp [List.length_zipWith, hx, hm]
  unfold Decrypt
  rw [if_neg (fun hn => hn hy), if_neg (fun hn => hn hcs)]
  simp only []
  have htarget :
      (List.zipWith (fun ci yi => ci ^ yi)
        (List.zipWith (fun xi hi => par.G ^ xi * hi ^ r % par.P) x
          (msk.map fun s => par.G ^ s % par.P)) y).prod % par.P *
        invMod ((par.G ^ r % par.P) ^ (innerProd msk y % par.Q) % par.P)
          par.P % par.P
      = par.G ^ innerProd x y % par.P := by
    rw [cipher_prod_pow par.G par.P r x msk y (by omega)]
    rw [show (par.G ^ r % par.P) ^ (innerProd msk y % par.Q) % par.P
        = par.G ^ (r * (innerProd msk y % par.Q)) % par.P by
      rw [mod_pow_mod, ← pow_mul]]
    unfold invMod
    rw [mod_pow_mod, ← pow_mul, mul_mod_both, ← pow_add]
    exact pow_mod_congr par.G par.P par.Q hP hord
      (exponent_reduce par.Q par.P (innerProd msk y) r (innerProd x y) hP hdvd)
  rw [htarget]

/-- The full single-input round trip on honest inputs recovers exactly the
inner product. -/
theorem roundtrip_core (par : GroupParams) (msk x y : List Nat) (r : Nat)
    (hP : 1 < par.P)
    (hdvd : par.Q ∣ par.P - 1)
    (hord : par.G ^ par.Q % par.P = 1)
    (hinj : ∀ a < par.Q, ∀ b < par.Q,
      par.G ^ a % par.P = par.G ^ b % par.P → a = b)
    (hm : msk.length = par.L) (hx : x.length = par.L) (hy : y.length = par.L)
    (hL : 1 ≤ par.L)
    (hxb : ∀ a ∈ x, a < par.bound) (hyb : ∀ b ∈ y, b < par.bound)
    (hrange : par.L * par.bound ^ 2 < par.Q) :
    Decrypt par
        ⟨par.G ^ r % par.P,
          List.zipWith (fun xi hi => par.G ^ xi * hi ^ r % par.P) x
            (msk.map fun s => par.G ^ s % par.P)⟩
        (innerProd msk y % par.Q) y
      = .ok (innerProd x y) := by
  rw [decrypt_target par msk x y r hP hdvd hord hm hx hy]
  have hxne : x ≠ [] := by
    intro he
    rw [he] at hx
    simp at hx
    omega
  have hA : innerProd x y < par.L * par.bound ^ 2 := by
    have h := innerProd_lt par.bound x y hxne (hx.trans hy.symm) hxb hyb
    rwa [hx] at h
  rw [dlogRecover_exact par.G par.P par.Q hinj (innerProd x y)
    (par.L * par.bound ^ 2) hA (by omega)]

/-! Bridging lemmas for the parameter generator and the parser. -/

/-- The trial-division test decides primality. -/
theorem isPrime_iff (n : Nat) : isPrime n = true ↔ Nat.Prime n := by
  rw [Nat.prime_def_lt]
  unfold isPrime
  simp only [Bool.and_eq_true, decide_eq_true_eq, List.all_eq_true,
    List.mem_range]
  constructor
  · rintro ⟨h2, hdiv⟩
    refine ⟨h2, ?_⟩
    intro m hm hdvd
    by_contra hne
    have hm0 : m ≠ 0 := by
      rintro rfl
      rw [Nat.zero_dvd] at hdvd
      omega
    have hm2 : 2 ≤ m := by omega
    have hd := hdiv (m - 2) (by omega)
    rw [show m - 2 + 2 = m by omega] at hd
    obtain ⟨k, rfl⟩ := hdvd
    exact hd (Nat.mul_mod_right m k)
  · rintro ⟨h2, hprime⟩
    refine ⟨h2, ?_⟩
    intro d hd hmod
    have hdvd : (d + 2) ∣ n := Nat.dvd_of_mod_eq_zero hmod
    have := hprime (d + 2) (by omega) hdvd
    omega

/-- The zipWith inner product agrees with the indexed finite sum. -/
theorem innerProd_eq_sum :
    ∀ (x y : List Nat) (L : Nat), x.length = L → y.length = L →
      innerProd x y = ∑ i ∈ Finset.range L, x.getD i 0 * y.getD i 0 := by
  intro x
  induction x with
  | nil =>
    intro y L hx hy
    obtain rfl : L = 0 := by simpa using hx.symm
    simp [innerProd]
  | cons a x ih =>
    intro y L hx hy
    cases y with
    | nil => rw [← hx] at hy; simp at hy
    | cons b y =>
      cases L with
      | zero => simp at hx
      | succ L =>
        rw [Finset.sum_range_succ']
        simp only [List.getD_cons_zero, List.getD_cons_succ]
        rw [← ih y L (by simpa using hx) (by simpa using hy)]
        simp [innerProd, Nat.add_comm]

/-- A successful token loop parses tokens to values positionally. -/
theorem parseTokens_some (ts : List (List Char)) :
    ∀ (xs : List Nat), parseTokens ts = some xs →
      List.Forall₂ (fun t x => parseUint64 t = some x) ts xs := by
  induction ts with
  | nil =>
    intro xs h
    cases h
    exact List.Forall₂.nil
  | cons t ts ih =>
    intro xs h
    unfold parseTokens at h
    cases hp : parseUint64 t with
    | none =>
      rw [hp] at h
      cases hq : parseTokens ts with
      | none => rw [hq] at h; cases h
      | some vs => rw [hq] at h; cases h
    | some v =>
      rw [hp] at h
      cases hq : parseTokens ts with
      | none => rw [hq] at h; cases h
      | some vs =>
        rw [hq] at h
        cases h
        exact List.Forall₂.cons hp (ih vs hq)

/-- Every parsed value fits in 64 bits. -/
theorem parseUint64_lt (t : List Char) (x : Nat)
    (h : parseUint64 t = some x) : x < 2 ^ 64 := by
  unfold parseUint64 at h
  by_cases he : t.isEmpty = true
  · rw [if_pos he] at h; cases h
  · rw [if_neg he] at h
    by_cases hd : t.all charDigit = true
    · rw [if_pos hd] at h
      by_cases hv : digitsToNat t < 2 ^ 64
      · rw [if_pos hv] at h; cases h; exact hv
      · rw [if_neg hv] at h; cases h
    · rw [if_neg hd] at h; cases h

/-- Every value returned by a successful token loop fits in 64 bits. -/
theorem parseTokens_mem_lt (ts : List (List Char)) :
    ∀ (xs : List Nat), parseTokens ts = some xs → ∀ x ∈ xs, x < 2 ^ 64 := by
  induction ts with
  | nil =>
    intro xs h
    cases h
    intro x hx
    cases hx
  | cons t ts ih =>
    intro xs h
    unfold parseTokens at h
    cases hp : parseUint64 t with
    | none =>
      rw [hp] at h
      cases hq : parseTokens ts with
      | none => rw [hq] at h; cases h
      | some vs => rw [hq] at h; cases h
    | some v =>
      rw [hp] at h
      cases hq : parseTokens ts with
      | none => rw [hq] at h; cases h
      | some vs =>
        rw [hq] at h
        cases h
        intro x hx
        rcases List.mem_cons.mp hx with rfl | hx'
        · exact parseUint64_lt t x hp
        · exact ih vs hq x hx'

/-- The token loop fails exactly when some token fails to parse. -/
theorem parseTokens_none (ts : List (List Char)) :
    parseTokens ts = none ↔ ∃ t ∈ ts, parseUint64 t = none := by
  induction ts with
  | nil => simp [parseTokens]
  | cons t ts ih =>
    constructor
    · intro h
      unfold parseTokens at h
      cases hp : parseUint64 t with
      | none => exact ⟨t, by simp, hp⟩
      | some v =>
        rw [hp] at h
        cases hq : parseTokens ts with
        | none =>
          obtain ⟨u, hu, hpu⟩ := ih.mp hq
          exact ⟨u, by simp [hu], hpu⟩
        | some vs => rw [hq] at h; cases h
    · rintro ⟨u, hu, hpu⟩
      unfold parseTokens
      rcases List.mem_cons.mp hu with rfl | hu'
      · rw [hpu]
      · cases hp : parseUint64 t with
        | none => rfl
        | some v =>
          rw [ih.mpr ⟨u, hu', hpu⟩]

/-! Claim theorems. -/

/-- C1: single-input round-trip correctness.  For every vector length L at
least 1, every bound, and all vectors x and y of length L with coordinates
below the bound, over any valid group (G of order Q in the units modulo the
prime-sized modulus P, Q dividing P - 1, recovery window L times bound
squared below Q), encrypting x under the public half of GenerateMasterKeys,
deriving a key for y from the secret half, and decrypting returns exactly
the inner product of x and y. -/
theorem ddh_single_roundtrip (par : GroupParams) (msk x y : List Nat)
    (r : Nat)
    (hP : 1 < par.P)
    (hdvd : par.Q ∣ par.P - 1)
    (hord : par.G ^ par.Q % par.P = 1)
    (hinj : ∀ a < par.Q, ∀ b < par.Q,
      par.G ^ a % par.P = par.G ^ b % par.P → a = b)
    (hm : msk.length = par.L) (hx : x.length = par.L) (hy : y.length = par.L)
    (hL : 1 ≤ par.L)
    (hxb : ∀ a ∈ x, a < par.bound) (hyb : ∀ b ∈ y, b < par.bound)
    (hrange : par.L * par.bound ^ 2 < par.Q) :
    ∃ c fk, Encrypt par (GenerateMasterKeys par msk).2 r x = .ok c ∧
      DeriveKey par msk y = .ok fk ∧
      Decrypt par c fk y = .ok (innerProd x y) := by
  refine ⟨_, _, encrypt_ok par (GenerateMasterKeys par msk).2 x r hx hxb,
    deriveKey_ok par msk y hy, ?_⟩
  exact roundtrip_core par msk x y r hP hdvd hord hinj hm hx hy hL hxb hyb
    hrange

/-- Witness for C1 at the concrete group par23 with msk = [3, 5],
x = [1, 1], y = [1, 0] and ephemeral exponent 4. -/
theorem ddh_single_roundtrip_witness :
    ∃ c fk, Encrypt par23 (GenerateMasterKeys par23 [3, 5]).2 4 [1, 1]
        = .ok c ∧
      DeriveKey par23 [3, 5] [1, 0] = .ok fk ∧
      Decrypt par23 c fk [1, 0] = .ok (innerProd [1, 1] [1, 0]) :=
  ddh_single_roundtrip par23 [3, 5] [1, 1] [1, 0] 4
    (by decide) (by decide) (by decide) (by decide) (by decide) (by decide)
    (by decide) (by decide) (by decide) (by decide) (by decide)

/-- C9: DDHWrapper single-key-pair invariant.  NewDDH stores the master key
pair produced once by GenerateMasterKeys; every wrapper Encrypt uses the
stored public key and every wrapper DeriveKey the stored secret key (the
wrapper is a pure value, so the stored keys are never mutated), and hence
ciphertexts and function keys from one wrapper instance belong to the same
matching pair: decrypting a wrapper ciphertext with a wrapper function key
recovers the inner product. -/
theorem wrapper_single_keypair (par : GroupParams) (s x y : List Nat)
    (r : Nat)
    (hP : 1 < par.P)
    (hdvd : par.Q ∣ par.P - 1)
    (hord : par.G ^ par.Q % par.P = 1)
    (hinj : ∀ a < par.Q, ∀ b < par.Q,
      par.G ^ a % par.P = par.G ^ b % par.P → a = b)
    (hs : s.length = par.L) (hx : x.length = par.L) (hy : y.length = par.L)
    (hL : 1 ≤ par.L)
    (hxb : ∀ a ∈ x, a < par.bound) (hyb : ∀ b ∈ y, b < par.bound)
    (hrange : par.L * par.bound ^ 2 < par.Q) :
    (NewDDH par s).params = par ∧
    (NewDDH par s).msk = (GenerateMasterKeys par s).1 ∧
    (NewDDH par s).mpk = (GenerateMasterKeys par s).2 ∧
    (∀ (r' : Nat) (x' : List Nat), (NewDDH par s).Encrypt r' x'
      = DDHFE.Encrypt par (GenerateMasterKeys par s).2 r' x') ∧
    (∀ y' : List Nat, (NewDDH par s).DeriveKey y'
      = DDHFE.DeriveKey par (GenerateMasterKeys par s).1 y') ∧
    ∃ c fk, (NewDDH par s).Encrypt r x = .ok c ∧
      (NewDDH par s).DeriveKey y = .ok fk ∧
      Decrypt par c fk y = .ok (innerProd x y) := by
  refine ⟨rfl, rfl, rfl, fun r' x' => rfl, fun y' => rfl, ?_⟩
  refine ⟨_, _, encrypt_ok par (GenerateMasterKeys par s).2 x r hx hxb,
    deriveKey_ok par s y hy, ?_⟩
  exact roundtrip_core par s x y r hP hdvd hord hinj hs hx hy hL hxb hyb
    hrange

/-- Witness for C9 at the concrete group par23 with secrets [3, 5],
x = [1, 1], y = [0, 1] and ephemeral exponent 7. -/
theorem wrapper_single_keypair_witness :
    (NewDDH par23 [3, 5]).params = par23 ∧
    (NewDDH par23 [3, 5]).msk = (GenerateMasterKeys par23 [3, 5]).1 ∧
    (NewDDH par23 [3, 5]).mpk = (GenerateMasterKeys par23 [3, 5]).2 ∧
    (∀ (r' : Nat) (x' : List Nat), (NewDDH par23 [3, 5]).Encrypt r' x'
      = DDHFE.Encrypt par23 (GenerateMasterKeys par23 [3, 5]).2 r' x') ∧
    (∀ y' : List Nat, (NewDDH par23 [3, 5]).DeriveKey y'
      = DDHFE.DeriveKey par23 (GenerateMasterKeys par23 [3, 5]).1 y') ∧
    ∃ c fk, (NewDDH par23 [3, 5]).Encrypt 7 [1, 1] = .ok c ∧
      (NewDDH par23 [3, 5]).DeriveKey [0, 1] = .ok fk ∧
      Decrypt par23 c fk [0, 1] = .ok (innerProd [1, 1] [0, 1]) :=
  wrapper_single_keypair par23 [3, 5] [1, 1] [0, 1] 7
    (by decide) (by decide) (by decide) (by decide) (by decide) (by decide)
    (by decide) (by decide) (by decide) (by decide) (by decide)

/-- C3 counterexample: the claim that Decrypt always fails whenever the
true inner product lies outside the recovery window is false once the inner
product reaches the group order Q.  Over par23 (window 8, order 11), an
honest encryption of x = [1, 1] decrypted with the honestly derived key for
the unchecked weight vector y = [5, 6] has true inner product 11, outside
the window, yet Decrypt returns the wrong numeric answer 0 = 11 mod 11
instead of failing. -/
theorem bound_enforcement_counterexample :
    innerProd [1, 1] [5, 6] = 11 ∧
    par23.L * par23.bound ^ 2 ≤ 11 ∧
    Encrypt par23 (GenerateMasterKeys par23 [3, 5]).2 4 [1, 1]
      = .ok ⟨16, [4, 12]⟩ ∧
    DeriveKey par23 [3, 5] [5, 6] = .ok 1 ∧
    Decrypt par23 ⟨16, [4, 12]⟩ 1 [5, 6] = .ok 0 := by
  decide

/-- C3 amended: Encrypt rejects any in-dimension vector containing a
coordinate at or above the bound with OutOfBound and never silently wraps;
and whenever the true inner product lies outside the recovery window but
still below the group order Q, Decrypt fails with DecryptionFailed rather
than returning a wrong numeric answer.  (Once the inner product reaches Q,
which requires weight coordinates beyond the bound since weights are
unchecked, the recovered value wraps modulo Q, as the counterexample
shows.) -/
theorem bound_enforcement_amended (par : GroupParams) (msk x y : List Nat)
    (r : Nat)
    (hP : 1 < par.P)
    (hdvd : par.Q ∣ par.P - 1)
    (hord : par.G ^ par.Q % par.P = 1)
    (hinj : ∀ a < par.Q, ∀ b < par.Q,
      par.G ^ a % par.P = par.G ^ b % par.P → a = b)
    (hm : msk.length = par.L) (hx : x.length = par.L) (hy : y.length = par.L)
    (hxb : ∀ a ∈ x, a < par.bound)
    (hip_lo : par.L * par.bound ^ 2 ≤ innerProd x y)
    (hip_hi : innerProd x y < par.Q) :
    (∀ (mpk x' : List Nat) (r' : Nat), x'.length = par.L →
      (∃ a ∈ x', par.bound ≤ a) →
      Encrypt par mpk r' x' = .error .OutOfBound) ∧
    ∃ c fk, Encrypt par (GenerateMasterKeys par msk).2 r x = .ok c ∧
      DeriveKey par msk y = .ok fk ∧
      Decrypt par c fk y = .error .DecryptionFailed := by
  constructor
  · intro mpk x' r' hlen hbad
    have hany : x'.any (fun xi => decide (par.bound ≤ xi)) = true := by
      simp only [List.any_eq_true, decide_eq_true_eq]
      exact hbad
    unfold Encrypt
    rw [if_neg (fun hn => hn hlen), if_pos hany]
  · refine ⟨_, _, encrypt_ok par (GenerateMasterKeys par msk).2 x r hx hxb,
      deriveKey_ok par msk y hy, ?_⟩
    show Decrypt par
        ⟨par.G ^ r % par.P,
          List.zipWith (fun xi hi => par.G ^ xi * hi ^ r % par.P) x
            (msk.map fun s => par.G ^ s % par.P)⟩
        (innerProd msk y % par.Q) y = .error .DecryptionFailed
    rw [decrypt_target par msk x y r hP hdvd hord hm hx hy,
      dlogRecover_misses par.G par.P par.Q hinj (innerProd x y)
        (par.L * par.bound ^ 2) hip_lo hip_hi]

/-- Witness for the amended C3 at par23: coordinate 2 at the bound is
rejected with OutOfBound, and for y = [4, 5] the true inner product 9 lies
in the window-to-order gap, so decryption fails with DecryptionFailed. -/
theorem bound_enforcement_amended_witness :
    Encrypt par23 [] 0 [2, 1] = .error .OutOfBound ∧
    ∃ c fk, Encrypt par23 (GenerateMasterKeys par23 [3, 5]).2 4 [1, 1]
        = .ok c ∧
      DeriveKey par23 [3, 5] [4, 5] = .ok fk ∧
      Decrypt par23 c fk [4, 5] = .error .DecryptionFailed := by
  have h := bound_enforcement_amended par23 [3, 5] [1, 1] [4, 5] 4
    (by decide) (by decide) (by decide) (by decide) (by decide) (by decide)
    (by decide) (by decide) (by decide) (by decide)
  exact ⟨h.1 [] [2, 1] 0 (by decide) ⟨2, by decide, by decide⟩, h.2⟩

/-- C5 counterexample: the claim that recovery over the window up to R
fails with NotFound for every exponent outside the window is false once the
exponent reaches the generator order: with G = 2 of order 11 modulo 23 and
window 3, the target of exponent 11 equals the target of exponent 0, and
recovery returns 0 instead of failing. -/
theorem dlog_boundary_counterexample :
    (∀ a < 11, ∀ b < 11, 2 ^ a % 23 = 2 ^ b % 23 → a = b) ∧
    2 ^ 11 % 23 = 1 ∧ ¬ (11 < 3) ∧
    dlogRecover 2 23 (2 ^ 11 % 23) 3 = .ok 0 := by
  decide

/-- C5 amended: over any window R between 1 and the generator order Q,
bounded recovery succeeds on the exponent R - 1 and returns it, fails
deterministically with NotFound for every exponent from R up to Q (in
particular for R itself when R is below Q), and never returns a value at or
beyond R, so the search never extends past the caller-specified window.
(Exponents at or beyond Q coincide with their reduction modulo Q, as the
counterexample shows.) -/
theorem dlog_boundary_amended (G P Q R : Nat)
    (hinj : ∀ a < Q, ∀ b < Q, G ^ a % P = G ^ b % P → a = b)
    (hR : 1 ≤ R) (hRQ : R ≤ Q) :
    dlogRecover G P (G ^ (R - 1) % P) R = .ok (R - 1) ∧
    (∀ v, R ≤ v → v < Q → dlogRecover G P (G ^ v % P) R
      = .error .NotFound) ∧
    (∀ t v, dlogRecover G P t R = .ok v → v < R) := by
  refine ⟨dlogRecover_exact G P Q hinj (R - 1) R (by omega) hRQ,
    fun v h1 h2 => dlogRecover_misses G P Q hinj v R h1 h2, ?_⟩
  intro t v h
  unfold dlogRecover at h
  cases hs : dlogSearch G P t R 0 with
  | none => rw [hs] at h; cases h
  | some w =>
    rw [hs] at h
    have h2 : (Except.ok w : Except FeError Nat) = .ok v := h
    have h3 := dlogSearch_sound G P t R 0 w hs
    have h4 : w = v := by cases h2; rfl
    omega

/-- Witness for the amended C5 at G = 2, P = 23, Q = 11, R = 3. -/
theorem dlog_boundary_amended_witness :
    dlogRecover 2 23 (2 ^ (3 - 1) % 23) 3 = .ok (3 - 1) ∧
    (∀ v, 3 ≤ v → v < 11 → dlogRecover 2 23 (2 ^ v % 23) 3
      = .error .NotFound) ∧
    (∀ t v, dlogRecover 2 23 t 3 = .ok v → v < 3) :=
  dlog_boundary_amended 2 23 11 3 (by decide) (by decide) (by decide)

/-- C4: dimension enforcement.  Encrypt (single and per-client multi),
DeriveKey and Decrypt fail with DimensionMismatch whenever the supplied
vector length disagrees with L, and the multi-input DeriveKey and Decrypt
fail with DimensionMismatch whenever the weight matrix does not have
exactly N rows of length L, for every such mismatched input. -/
theorem dimension_enforcement (par : GroupParams) (mp : MultiParams)
    (mpk msk otp x y : List Nat) (r fk : Nat) (c : Ciphertext)
    (sk : MultiSecKey) (ciphers : List Ciphertext) (Y : List (List Nat))
    (fkM : Int) :
    (x.length ≠ par.L → Encrypt par mpk r x = .error .DimensionMismatch) ∧
    (x.length ≠ par.L →
      EncryptMulti par mpk otp r x = .error .DimensionMismatch) ∧
    (y.length ≠ par.L → DeriveKey par msk y = .error .DimensionMismatch) ∧
    (y.length ≠ par.L → Decrypt par c fk y = .error .DimensionMismatch) ∧
    (Y.length ≠ mp.numClients ∨ (∃ row ∈ Y, row.length ≠ mp.params.L) →
      DeriveKeyMulti mp sk Y = .error .DimensionMismatch) ∧
    (Y.length ≠ mp.numClients ∨ (∃ row ∈ Y, row.length ≠ mp.params.L) →
      DecryptMulti mp ciphers fkM Y = .error .DimensionMismatch) := by
  have henc : x.length ≠ par.L →
      Encrypt par mpk r x = .error .DimensionMismatch := by
    intro h
    unfold Encrypt
    rw [if_pos h]
  refine ⟨henc, ?_, ?_, ?_, ?_, ?_⟩
  · intro h
    unfold EncryptMulti
    rw [henc h]
  · intro h
    unfold DeriveKey
    rw [if_pos h]
  · intro h
    unfold Decrypt
    rw [if_pos h]
  · intro h
    unfold DeriveKeyMulti
    by_cases hlen : Y.length ≠ mp.numClients
    · rw [if_pos hlen]
    · rw [if_neg hlen]
      have hany : Y.any (fun row => decide (row.length ≠ mp.params.L))
          = true := by
        rcases h with h | ⟨row, hmem, hne⟩
        · exact absurd h hlen
        · simp only [List.any_eq_true, decide_eq_true_eq]
          exact ⟨row, hmem, hne⟩
      rw [if_pos hany]
  · intro h
    unfold DecryptMulti
    by_cases hlen : Y.length ≠ mp.numClients
    · rw [if_pos hlen]
    · rw [if_neg hlen]
      have hany : Y.any (fun row => decide (row.length ≠ mp.params.L))
          = true := by
        rcases h with h | ⟨row, hmem, hne⟩
        · exact absurd h hlen
        · simp only [List.any_eq_true, decide_eq_true_eq]
          exact ⟨row, hmem, hne⟩
      rw [if_pos hany]

/-- Witness for C4: concrete mismatched inputs over par23 (L = 2) and mp1
(N = 2), each rejected with DimensionMismatch. -/
theorem dimension_enforcement_witness :
    Encrypt par23 [] 0 [1] = .error .DimensionMismatch ∧
    EncryptMulti par23 [] [] 0 [1] = .error .DimensionMismatch ∧
    DeriveKey par23 [] [1] = .error .DimensionMismatch ∧
    Decrypt par23 ⟨1, []⟩ 0 [1] = .error .DimensionMismatch ∧
    DeriveKeyMulti mp1 ⟨[], []⟩ [[1, 1]] = .error .DimensionMismatch ∧
    DecryptMulti mp1 [] 0 [[1, 1]] = .error .DimensionMismatch := by
  have h := dimension_enforcement par23 mp1 [] [] [] [1] [1] 0 0 ⟨1, []⟩
    ⟨[], []⟩ [] [[1, 1]] 0
  exact ⟨h.1 (by decide), h.2.1 (by decide), h.2.2.1 (by decide),
    h.2.2.2.1 (by decide), h.2.2.2.2.1 (Or.inl (by decide)),
    h.2.2.2.2.2 (Or.inl (by decide))⟩

/-- C6: parameter-generator postcondition.  For every vector length,
modulus bit-length and bound, the generator either returns GroupParams in
which P and Q are prime, Q divides P - 1, G is a nontrivial element with
G ^ Q = 1 modulo P and no smaller positive exponent reaching 1 (so G
generates a subgroup of exact prime order Q), the maximal inner product
L times bound squared is strictly below Q and P fits the modulus length, or
it fails with ParameterError when no candidate of the bounded trial
sequence is suitable, which also covers a bound and length combination that
cannot fit the requested modulus length. -/
theorem param_generator_postcondition (l modLen bnd : Nat)
    (cands : List GroupCandidate) :
    (∀ par, NewDDHParams l modLen bnd cands = .ok par →
      par.L = l ∧ par.bound = bnd ∧ Nat.Prime par.P ∧ Nat.Prime par.Q ∧
      par.Q ∣ par.P - 1 ∧ par.G % par.P ≠ 1 ∧ par.G ^ par.Q % par.P = 1 ∧
      (∀ k, 0 < k → k < par.Q → par.G ^ k % par.P ≠ 1) ∧
      l * bnd ^ 2 < par.Q ∧ par.P < 2 ^ modLen) ∧
    (∀ e, NewDDHParams l modLen bnd cands = .error e →
      e = .ParameterError) := by
  constructor
  · intro par h
    unfold NewDDHParams at h
    cases hf : cands.find? (suitable l modLen bnd) with
    | none => rw [hf] at h; cases h
    | some cand =>
      rw [hf] at h
      have hsuit : suitable l modLen bnd cand = true := List.find?_some hf
      cases h
      unfold suitable at hsuit
      simp only [Bool.and_eq_true, decide_eq_true_eq] at hsuit
      obtain ⟨⟨⟨⟨⟨⟨hp, hq⟩, hdvd0⟩, hg1⟩, hgq⟩, hlb⟩, hpm⟩ := hsuit
      have hPp : Nat.Prime cand.p := (isPrime_iff _).mp hp
      have hQp : Nat.Prime cand.q := (isPrime_iff _).mp hq
      refine ⟨rfl, rfl, hPp, hQp, Nat.dvd_of_mod_eq_zero hdvd0, hg1, hgq,
        ?_, hlb, hpm⟩
      intro k hk0 hkQ hk1
      have hkq : k < cand.q := hkQ
      have hP1 : 1 < cand.p := hPp.one_lt
      have hnd : ¬ cand.q ∣ k := fun hdd =>
        absurd (Nat.le_of_dvd hk0 hdd) (by omega)
      have hcop : Nat.Coprime k cand.q :=
        ((Nat.Prime.coprime_iff_not_dvd hQp).mpr hnd).symm
      obtain ⟨m, hmm⟩ :=
        Nat.exists_mul_emod_eq_one_of_coprime hcop hQp.one_lt
      have hgm1 : cand.g ^ (k * m) % cand.p = 1 := by
        rw [pow_mul, Nat.pow_mod, hk1, one_pow,
          Nat.one_mod_eq_one.mpr (by omega)]
      have hgmG : cand.g ^ (k * m) % cand.p = cand.g % cand.p := by
        rw [pow_mod_reduce cand.g cand.p cand.q hP1 hgq, hmm, pow_one]
      exact hg1 (hgmG.symm.trans hgm1)
  · intro e h
    unfold NewDDHParams at h
    cases hf : cands.find? (suitable l modLen bnd) with
    | none =>
      rw [hf] at h
      cases h
      rfl
    | some cand => rw [hf] at h; cases h

/-- Witness for C6: the candidate list holding only (P, Q, G) =
(23, 11, 2) is accepted for L = 2, modulus length 5 and bound 2, and the
theorem yields the primality, divisibility and window facts for it. -/
theorem param_generator_postcondition_witness :
    Nat.Prime 23 ∧ Nat.Prime 11 ∧ (11 : Nat) ∣ 23 - 1 ∧
    2 * 2 ^ 2 < 11 ∧ NewDDHParams 2 5 2 [⟨23, 11, 2⟩] = .ok par23 := by
  have hok : NewDDHParams 2 5 2 [⟨23, 11, 2⟩] = .ok par23 := by decide
  obtain ⟨hL, hB, hP, hQ, hdvd, hg1, hgq, hmin, hlb, hpm⟩ :=
    (param_generator_postcondition 2 5 2 [⟨23, 11, 2⟩]).1 par23 hok
  exact ⟨hP, hQ, hdvd, hlb, hok⟩

/-- C7: function-key derivation formula and range.  For every master
secret key of length L and every weight vector y of length L, over a scheme
with positive order and nondegenerate length and bound, DeriveKey returns
the indexed sum of msk_i times y_i reduced modulo Q, and this single scalar
lies in the range up to Q times L times bound (being below Q already). -/
theorem deriveKey_formula_range (par : GroupParams) (msk y : List Nat)
    (hm : msk.length = par.L) (hy : y.length = par.L)
    (hQ : 0 < par.Q) (hL : 1 ≤ par.L) (hB : 1 ≤ par.bound) :
    DeriveKey par msk y
      = .ok ((∑ i ∈ Finset.range par.L, msk.getD i 0 * y.getD i 0)
        % par.Q) ∧
    (∑ i ∈ Finset.range par.L, msk.getD i 0 * y.getD i 0) % par.Q
      < par.Q * par.L * par.bound := by
  have hsum := innerProd_eq_sum msk y par.L hm hy
  constructor
  · rw [deriveKey_ok par msk y hy, hsum]
  · have h1 : (∑ i ∈ Finset.range par.L, msk.getD i 0 * y.getD i 0) % par.Q
        < par.Q := Nat.mod_lt _ hQ
    have h2 : par.Q * 1 * 1 ≤ par.Q * par.L * par.bound :=
      Nat.mul_le_mul (Nat.mul_le_mul_left par.Q hL) hB
    omega

/-- Witness for C7 at par23 with msk = [3, 5] and y = [1, 2]. -/
theorem deriveKey_formula_range_witness :
    DeriveKey par23 [3, 5] [1, 2]
      = .ok ((∑ i ∈ Finset.range par23.L,
          ([3, 5] : List Nat).getD i 0 * ([1, 2] : List Nat).getD i 0)
        % par23.Q) ∧
    (∑ i ∈ Finset.range par23.L,
        ([3, 5] : List Nat).getD i 0 * ([1, 2] : List Nat).getD i 0)
      % par23.Q < par23.Q * par23.L * par23.bound :=
  deriveKey_formula_range par23 [3, 5] [1, 2]
    (by decide) (by decide) (by decide) (by decide) (by decide)

/-- C8: vector-parser contract.  For every input character string,
VecFromStr either returns the ordered sequence of values of its
comma-separated tokens (each a well-formed unsigned 64-bit numeral, hence
every returned coordinate is a nonnegative value below 2 ^ 64), or fails
exactly when some token is malformed or out of range. -/
theorem vecFromStr_contract (s : List Char) :
    (∀ xs, VecFromStr s = some xs →
      List.Forall₂ (fun t x => parseUint64 t = some x) (splitComma s) xs ∧
      ∀ x ∈ xs, x < 2 ^ 64) ∧
    (VecFromStr s = none ↔ ∃ t ∈ splitComma s, parseUint64 t = none) := by
  constructor
  · intro xs h
    exact ⟨parseTokens_some (splitComma s) xs h,
      parseTokens_mem_lt (splitComma s) xs h⟩
  · exact parseTokens_none (splitComma s)

/-- Witness for C8 on the input string 12,5: the two tokens parse to the
values 12 and 5 positionally, both below 2 ^ 64. -/
theorem vecFromStr_contract_witness :
    List.Forall₂ (fun t x => parseUint64 t = some x)
      (splitComma ['1', '2', ',', '5']) [12, 5] ∧
    ∀ x ∈ ([12, 5] : List Nat), x < 2 ^ 64 :=
  (vecFromStr_contract ['1', '2', ',', '5']).1 [12, 5] (by decide)

/-- C10: IntsToVec is length- and value-preserving with no validation.  It
returns a vector of the same length whose i-th coordinate equals the i-th
input exactly, performing no nonnegativity and no bound check, so negative
or out-of-bound values pass through unchanged: on values it is the
identity. -/
theorem intsToVec_exact (x : List Int) :
    (IntsToVec x).length = x.length ∧
    (∀ i : Nat, (IntsToVec x).getD i 0 = x.getD i 0) ∧
    IntsToVec x = x := by
  refine ⟨?_, ?_, ?_⟩ <;> simp [IntsToVec]

end DDHFE
